import Mathlib

/-!
# HPLog: asynchronous logger

A shallow embedding of `include/log_message.hpp`, `include/logger.hpp` and
`src/logger.cpp` (v1.0.1).  The three kinds of threads that touch a `Logger`
(the callers of `Logger::log`, the worker thread running `Logger::worker`, and
the thread running the destructor) are modelled as program counters inside one
state; `step t s` is the next statement of thread `t`, and `run` applies a
schedule, that is, an interleaving of the threads.
-/

namespace HPLog

/-! ## log_message.hpp -/

/-- The enumeration `LogLevel` of `log_message.hpp`, lines 5-9. -/
inductive LogLevel where
  | INFO
  | WARN
  | ERROR
  deriving DecidableEq, Repr

/-- The conversion `static_cast<int>(level)`: the enumerators are numbered in
declaration order, starting from zero. -/
def LogLevel.toInt : LogLevel → Int
  | .INFO => 0
  | .WARN => 1
  | .ERROR => 2

/-- The size of the buffer `char text[256]`. -/
def textSize : Nat := 256

/-- The CRT call `strncpy_s(dest, size, src, _TRUNCATE)`, seen on the characters
before the terminator: as much of `src` as fits in `size` bytes while leaving
room for the terminating zero. -/
def strncpy_s_TRUNCATE (size : Nat) (src : List Char) : List Char :=
  src.take (size - 1)

/-- The struct `LogMessage`: the level and the C string held in `text`.  The
field `time` is written by the constructor and read by nobody; it is left out. -/
structure LogMessage where
  level : LogLevel
  text : List Char
  deriving DecidableEq, Repr

/-- The constructor `LogMessage(LogLevel lvl, const char* msg)`, lines 18-22. -/
def LogMessage.LogMessage (lvl : LogLevel) (msg : List Char) : LogMessage :=
  { level := lvl, text := strncpy_s_TRUNCATE textSize msg }

/-- What a caller hands to `Logger::log`: a level and a C string. -/
abbrev Record := LogLevel × List Char

/-- The message that `queue.emplace(level, msg)` builds from a record. -/
def mkMsg (r : Record) : LogMessage := LogMessage.LogMessage r.1 r.2

/-! ## logger.cpp: the bytes of one line -/

/-- The insertion `file << static_cast<int>(msg.level) << " : " << msg.text << "\n"`
of `logger.cpp`, lines 41-42, as the bytes it appends. -/
def formatLine (m : LogMessage) : List Char :=
  (toString m.level.toInt).toList ++ " : ".toList ++ m.text ++ "\n".toList

/-- The bytes of a sequence of lines. -/
def formatLines : List LogMessage → List Char
  | [] => []
  | m :: ms => formatLine m ++ formatLines ms

/-! ## The threads -/

/-- The threads that act on a logger. -/
inductive Thread where
  | producer (i : Nat)
  | worker
  | destructor
  deriving DecidableEq, Repr

/-- Where a caller of `Logger::log` stands (lines 20-26). -/
inductive LogPc where
  /-- Outside `log`, or entering it: next is the `lock_guard` of line 22. -/
  | idle
  /-- The lock is held: next is `queue.emplace` of line 23. -/
  | emplace
  /-- The record is queued: next is the end of the scope, line 24. -/
  | unlock
  /-- The lock is released: next is `cv.notify_one()` of line 25. -/
  | notifyOne
  deriving DecidableEq, Repr

/-- Where the worker stands in `Logger::worker` (lines 28-47). -/
inductive WorkerPc where
  /-- Line 29, left operand: next reads `running`. -/
  | loopRunning
  /-- Line 29, right operand: `running` was false, next reads `queue.empty()`. -/
  | loopQueue
  /-- Line 30: next acquires `mtx`. -/
  | lock
  /-- Lines 31-33: next evaluates the predicate of `cv.wait`, lock held. -/
  | waitPred
  /-- Inside `cv.wait`, predicate was false: next releases `mtx` and blocks. -/
  | waitBlock
  /-- Blocked on `cv`. -/
  | blocked
  /-- Notified: next reacquires `mtx` and evaluates the predicate again. -/
  | wakeup
  /-- Line 35: next tests `!queue.empty()`. -/
  | drainTest
  /-- Lines 36-37: next moves the front record out and pops it. -/
  | dequeue
  /-- Line 38: next is `lock.unlock()`. -/
  | unlock
  /-- Lines 41-42: next writes the line. -/
  | write
  /-- Line 44: next is `lock.lock()`; the iteration ends there. -/
  | relock
  /-- Line 46: the end of the outer body releases the `unique_lock`. -/
  | bodyEnd
  /-- The function has returned. -/
  | exited
  deriving DecidableEq, Repr

/-- Where the destructor stands (lines 9-18). -/
inductive DtorPc where
  /-- The logger is alive; next is `running = false` of line 10. -/
  | alive
  /-- Next is `cv.notify_all()` of line 11. -/
  | notifyAll
  /-- Next is the join of lines 13-14. -/
  | join
  /-- Next is `file.flush()` of line 16. -/
  | flush
  /-- Next is `file.close()` of line 17. -/
  | close
  /-- The destructor has returned. -/
  | done
  deriving DecidableEq, Repr

/-- A thread that calls `Logger::log` once for each record of `todo`, in order. -/
structure Producer where
  pc : LogPc
  todo : List Record
  deriving DecidableEq, Repr

/-- The members of `Logger` (`logger.hpp`, lines 23-29) together with the
destination file and the position of every thread. -/
structure State where
  /-- The bytes of the destination file. -/
  file : List Char
  /-- The bytes held by the `ofstream` and not yet flushed. -/
  buf : List Char
  /-- The stream is in a good state (the open succeeded). -/
  good : Bool
  /-- The stream is open. -/
  isOpen : Bool
  /-- The member `queue`, front first. -/
  queue : List LogMessage
  /-- The owner of `mtx`, if any. -/
  mtx : Option Thread
  /-- The member `running`. -/
  running : Bool
  /-- The value of `workerThread.joinable()`. -/
  joinable : Bool
  /-- The position of the worker. -/
  worker : WorkerPc
  /-- The local `msg` of the worker, inside one iteration of the inner loop. -/
  msg : Option LogMessage
  /-- The callers of `log`. -/
  prods : List Producer
  /-- The position of the destructor. -/
  dtor : DtorPc
  deriving DecidableEq, Repr

/-- A destination as the file system sees it: its bytes when it exists, and
whether it can be opened for append. -/
structure Dest where
  content : Option (List Char)
  openable : Bool
  deriving DecidableEq, Repr

/-- The error a failed open would be reported with. -/
inductive OpenError where
  | cannotOpen
  deriving DecidableEq, Repr

/-- The constructor `Logger::Logger` (lines 4-7) followed by the creation of
the calling threads with their programs.  `file.open` in append mode keeps the
bytes of an existing file and creates an absent one; when it fails it only sets
the failure state of the stream.  The result of `open` is not tested, and the
worker thread is started in every case. -/
def Logger.Logger (d : Dest) (progs : List (List Record)) : Except OpenError State :=
  .ok
    { file := d.content.getD []
      buf := []
      good := d.openable
      isOpen := d.openable
      queue := []
      mtx := none
      running := true
      joinable := true
      worker := .loopRunning
      msg := none
      prods := progs.map fun rs => { pc := .idle, todo := rs }
      dtor := .alive }

/-- The state right after construction. -/
def initial (d : Dest) (progs : List (List Record)) : State :=
  match Logger.Logger d progs with
  | .ok s => s
  | .error _ =>
    { file := d.content.getD [], buf := [], good := false, isOpen := false, queue := [],
      mtx := none, running := true, joinable := false, worker := .exited, msg := none,
      prods := [], dtor := .alive }

/-- The effect of `cv.notify_one()` and of `cv.notify_all()`: the only thread
that ever waits on `cv` is the worker, and it is woken when it is blocked. -/
def notifyCv (s : State) : State :=
  if s.worker = .blocked then { s with worker := .wakeup } else s

/-- A caller that has returned from its last call of `log`. -/
def Producer.finished (p : Producer) : Bool :=
  decide (p.pc = .idle) && p.todo.isEmpty

/-- One statement of the `i`-th caller inside `Logger::log` (lines 20-26). -/
def Logger.log (i : Nat) (s : State) : Option State :=
  match s.prods[i]? with
  | none => none
  | some p =>
    match p.pc with
    | .idle =>
      match p.todo with
      | [] => none
      | _ :: _ =>
        if s.mtx = none then
          some { s with mtx := some (.producer i),
                        prods := s.prods.set i { p with pc := .emplace } }
        else none
    | .emplace =>
      match p.todo with
      | [] => none
      | r :: rest =>
        some { s with queue := s.queue ++ [mkMsg r],
                      prods := s.prods.set i { pc := .unlock, todo := rest } }
    | .unlock =>
      some { s with mtx := none, prods := s.prods.set i { p with pc := .notifyOne } }
    | .notifyOne =>
      some (notifyCv { s with prods := s.prods.set i { p with pc := .idle } })

/-- One statement of `Logger::worker` (lines 28-47). -/
def Logger.worker (s : State) : Option State :=
  match s.worker with
  | .loopRunning =>
    some { s with worker := if s.running then .lock else .loopQueue }
  | .loopQueue =>
    some { s with worker := if s.queue.isEmpty then .exited else .lock }
  | .lock =>
    if s.mtx = none then some { s with mtx := some .worker, worker := .waitPred } else none
  | .waitPred =>
    some { s with worker := if !s.queue.isEmpty || !s.running then .drainTest else .waitBlock }
  | .waitBlock =>
    some { s with mtx := none, worker := .blocked }
  | .blocked => none
  | .wakeup =>
    if s.mtx = none then some { s with mtx := some .worker, worker := .waitPred } else none
  | .drainTest =>
    some { s with worker := if s.queue.isEmpty then .bodyEnd else .dequeue }
  | .dequeue =>
    match s.queue with
    | [] => none
    | m :: q => some { s with msg := some m, queue := q, worker := .unlock }
  | .unlock =>
    some { s with mtx := none, worker := .write }
  | .write =>
    match s.msg with
    | none => none
    | some m =>
      some { s with buf := if s.good then s.buf ++ formatLine m else s.buf, worker := .relock }
  | .relock =>
    if s.mtx = none then
      some { s with mtx := some .worker, msg := none, worker := .drainTest }
    else none
  | .bodyEnd =>
    some { s with mtx := none, worker := .loopRunning }
  | .exited => none

/-- One statement of `Logger::~Logger` (lines 9-18).  The destructor starts
once every caller has returned from its last `log`: no submit is concurrent
with it or follows it. -/
def Logger.dtor (s : State) : Option State :=
  match s.dtor with
  | .alive =>
    if s.prods.all Producer.finished then
      some { s with running := false, dtor := .notifyAll }
    else none
  | .notifyAll =>
    some (notifyCv { s with dtor := .join })
  | .join =>
    if s.joinable then
      if s.worker = .exited then some { s with joinable := false, dtor := .flush } else none
    else some { s with dtor := .flush }
  | .flush =>
    some (if s.good then { s with file := s.file ++ s.buf, buf := [], dtor := .close }
          else { s with dtor := .close })
  | .close =>
    some { s with isOpen := false, dtor := .done }
  | .done => none

/-- The next statement of thread `t`; `none` when `t` cannot move. -/
def step (t : Thread) (s : State) : Option State :=
  match t with
  | .producer i => Logger.log i s
  | .worker => Logger.worker s
  | .destructor => Logger.dtor s

/-- The state reached by an interleaving, when every thread named in it can
move at its turn. -/
def run : List Thread → State → Option State
  | [], s => some s
  | t :: ts, s => (step t s).bind (run ts)

/-- The record the worker has dequeued and not yet written. -/
def inFlight (s : State) : List LogMessage :=
  if s.worker = .unlock ∨ s.worker = .write then s.msg.toList else []

/-- The records the `j`-th caller has still to submit. -/
def todoOf (s : State) (j : Nat) : List Record :=
  (s.prods[j]?.map Producer.todo).getD []

/-- The shared variables of `Logger`. -/
inductive Shared where
  | queue
  | running
  deriving DecidableEq, Repr

/-- The shared variables that the next statement of thread `t` reads or
writes, statement by statement of `logger.cpp`. -/
def touches (t : Thread) (s : State) : List Shared :=
  match t with
  | .producer i =>
    match s.prods[i]? with
    | some p => if p.pc = .emplace then [.queue] else []
    | none => []
  | .worker =>
    match s.worker with
    | .loopRunning => [.running]
    | .loopQueue => [.queue]
    | .waitPred => [.queue, .running]
    | .drainTest => [.queue]
    | .dequeue => [.queue]
    | _ => []
  | .destructor =>
    match s.dtor with
    | .alive => [.running]
    | _ => []

/-- The statements of the worker that lie inside the body of its outer loop,
from the `cv.wait` of line 31 to the end of the inner loop at line 45. -/
def inWorkerBody (s : State) : Bool :=
  match s.worker with
  | .waitPred | .waitBlock | .drainTest | .dequeue | .unlock | .write | .relock => true
  | _ => false

/-- The schedule that repeats a block of steps `n` times. -/
def times : Nat → List Thread → List Thread
  | 0, _ => []
  | n + 1, b => b ++ times n b

/-- The interleaving in which the one caller submits everything, then the
destructor sets the flag and notifies, then the worker drains, then the
destructor joins, flushes and closes. -/
def sequentialSchedule (n : Nat) : List Thread :=
  times n [.producer 0, .producer 0, .producer 0, .producer 0]
    ++ ([.destructor, .destructor]
    ++ ((if n = 0 then [.worker, .worker]
        else [.worker, .worker, .worker, .worker]
          ++ (times n [.worker, .worker, .worker, .worker, .worker]
          ++ [.worker, .worker, .worker, .worker]))
    ++ [.destructor, .destructor, .destructor]))

/-- The positions at which the worker owns `mtx`. -/
def holdsLock : WorkerPc → Bool
  | .waitPred | .waitBlock | .drainTest | .dequeue | .unlock | .bodyEnd => true
  | _ => false

/-- The states of the sequential interleaving while the one caller submits:
the worker has not moved yet, `q` is queued and `todo` remains. -/
def submitState (d : Dest) (q : List LogMessage) (todo : List Record) : State :=
  { file := d.content.getD [], buf := [], good := d.openable, isOpen := d.openable,
    queue := q, mtx := none, running := true, joinable := true, worker := .loopRunning,
    msg := none, prods := [{ pc := .idle, todo := todo }], dtor := .alive }

/-- The states of the sequential interleaving while the worker drains, at the
test of its inner loop: `b` is buffered and `q` is still queued. -/
def drainState (d : Dest) (b : List Char) (q : List LogMessage) : State :=
  { file := d.content.getD [], buf := b, good := true, isOpen := true,
    queue := q, mtx := some .worker, running := false, joinable := true,
    worker := .drainTest, msg := none, prods := [{ pc := .idle, todo := [] }],
    dtor := .join }

/-! ## Invariants of the step relation -/

/-- The facts about the positions of the threads, the mutex and the flag that
hold in every state reached from a constructed logger. -/
structure Ctl (s : State) : Prop where
  alive : s.running = true ↔ s.dtor = .alive
  fin : s.dtor ≠ .alive → ∀ (j : Nat) (p : Producer), s.prods[j]? = some p → p.pc = .idle ∧ p.todo = []
  lq : s.worker = .loopQueue → s.running = false
  ex : s.worker = .exited → s.running = false ∧ s.queue = []
  joined : (s.dtor = .flush ∨ s.dtor = .close ∨ s.dtor = .done) → s.worker = .exited
  jn : (s.dtor = .alive ∨ s.dtor = .notifyAll ∨ s.dtor = .join) → s.joinable = true
  flushed : (s.dtor = .close ∨ s.dtor = .done) → s.buf = []
  bad : s.good = false → s.buf = []
  wmtx : s.mtx = some .worker ↔ holdsLock s.worker = true
  pmtx : ∀ (j : Nat) (p : Producer), s.prods[j]? = some p →
    (s.mtx = some (.producer j) ↔ (p.pc = .emplace ∨ p.pc = .unlock))
  dmtx : s.mtx ≠ some .destructor

/-- The facts about the data: the sink holds the lines of the records written
so far; these, then the record in flight, then the queue are an interleaving of
what the callers have submitted, each caller in its own order.  The lists
`tw1` and `tw2` pair each record with the caller it came from. -/
def Data (file0 : List Char) (progs : List (List Record)) (s : State) : Prop :=
  s.good = true ∧
  ∃ tw1 tw2 : List (Nat × Record),
    s.file ++ s.buf = file0 ++ formatLines (tw1.map fun x => mkMsg x.2) ∧
    tw2.map (fun x => mkMsg x.2) = inFlight s ++ s.queue ∧
    ∀ j : Nat, ((tw1 ++ tw2).filter fun x => x.1 == j).map Prod.snd ++ todoOf s j
      = progs.getD j []

/-- A caller that owns `mtx` is one of the callers of the state. -/
def MtxValid (s : State) : Prop :=
  ∀ k : Nat, s.mtx = some (.producer k) → k < s.prods.length

/-- The state in which every complete run on a good stream ends: `n` callers
have returned, the worker has exited, the destructor has returned. -/
def closedState (file : List Char) (n : Nat) : State :=
  { file := file, buf := [], good := true, isOpen := false, queue := [], mtx := none,
    running := false, joinable := false, worker := .exited, msg := none,
    prods := List.replicate n { pc := .idle, todo := [] }, dtor := .done }

/-! ## Concrete inputs -/

/-- An existing destination that can be opened. -/
def exDest : Dest := { content := some "old\n".toList, openable := true }

/-- Two records of one caller. -/
def exRecords : List Record := [(.INFO, "a".toList), (.ERROR, "bc".toList)]

/-- The call of the demonstration program, `examples/demo.cpp` line 17. -/
def demoRecord : Record := (.INFO, "High frequency log test".toList)

/-- The ten thousand calls of the demonstration program. -/
def demoRecords : List Record := List.replicate 10000 demoRecord

/-- The destination of the demonstration program, absent before the run. -/
def demoDest : Dest := { content := none, openable := true }

/-- A text of three hundred characters, longer than the buffer. -/
def exLongText : List Char := List.replicate 300 (Char.ofNat 120)

/-- A destination that cannot be opened. -/
def exClosedDest : Dest := { content := none, openable := false }

/-- The programs of two callers, two records each. -/
def exPrograms : List (List Record) :=
  [[(.INFO, "a1".toList), (.INFO, "a2".toList)], [(.WARN, "b1".toList), (.WARN, "b2".toList)]]

/-- An interleaving of two callers, the worker and the destructor that runs to
completion. -/
def exConcurrentSchedule : List Thread :=
  [.producer 1, .worker, .producer 1, .producer 1, .producer 1, .worker, .worker, .worker,
   .worker, .worker, .producer 0, .worker, .producer 0, .producer 0, .producer 0,
   .producer 1, .producer 1, .producer 1, .producer 0, .producer 1, .producer 0,
   .producer 0, .producer 0, .destructor, .worker, .worker, .destructor, .worker, .worker,
   .worker, .worker, .worker, .worker, .worker, .worker, .worker, .worker, .worker, .worker,
   .worker, .worker, .worker, .worker, .worker, .worker, .destructor, .destructor,
   .destructor]

/-- The interleaving of the lost wakeup: the worker evaluates the predicate of
`cv.wait` while the flag is still set, the destructor clears the flag and
notifies, and only then the worker blocks. -/
def lostWakeupSchedule : List Thread :=
  [.worker, .worker, .worker, .destructor, .destructor, .worker]

/-- The state reached by `lostWakeupSchedule` on a logger nobody has written
to: the flag is cleared, the notification is past, the worker is blocked and
the destructor waits in `join`. -/
def lostWakeupState : State :=
  { file := [], buf := [], good := true, isOpen := true, queue := [], mtx := none,
    running := false, joinable := true, worker := .blocked, msg := none, prods := [],
    dtor := .join }

/-- An interleaving that stops while the worker writes the first record, the
caller having returned from its first call. -/
def exWriteSchedule : List Thread :=
  [.worker, .producer 0, .producer 0, .producer 0, .worker, .worker, .worker, .worker,
   .worker, .producer 0]

/-- The state reached by `exWriteSchedule`. -/
def exWriteState : State :=
  { file := "old\n".toList, buf := [], good := true, isOpen := true, queue := [],
    mtx := none, running := true, joinable := true, worker := .write,
    msg := some { level := .INFO, text := "a".toList },
    prods := [{ pc := .idle, todo := [(.ERROR, "bc".toList)] }], dtor := .alive }

/-- An interleaving that stops while the worker writes the first record and
the caller is about to queue the second. -/
def exMidSchedule : List Thread :=
  [.worker, .producer 0, .producer 0, .producer 0, .worker, .worker, .worker, .worker,
   .worker, .producer 0, .producer 0]

/-- The state reached by `exMidSchedule`. -/
def exMidState : State :=
  { file := "old\n".toList, buf := [], good := true, isOpen := true, queue := [],
    mtx := some (.producer 0), running := true, joinable := true, worker := .write,
    msg := some { level := .INFO, text := "a".toList },
    prods := [{ pc := .emplace, todo := [(.ERROR, "bc".toList)] }], dtor := .alive }

theorem ctl_initial (d : Dest) (progs : List (List Record)) : Ctl (initial d progs) := by
  constructor <;> simp [initial, Logger.Logger, holdsLock]

set_option maxHeartbeats 4000000 in
theorem ctl_stepWorker {s s' : State} (h : Ctl s) (hs : Logger.worker s = some s') : Ctl s' := by
  obtain ⟨h1, h2, h3, h4, h5, h6, h7, h8, h9, h10, h11⟩ := h
  cases hw : s.worker <;> simp only [Logger.worker, hw] at hs <;>
    (try split at hs) <;> (try cases hs) <;>
    cases hr : s.running <;> cases hq : s.queue <;>
    constructor <;> dsimp only <;> first
      | assumption
      | (intro j p hp; have h10 := h10 j p hp; clear h2; simp_all [holdsLock]; done)
      | (clear h2 h10; simp_all [holdsLock]; done)

theorem notifyCv_worker (s : State) :
    (notifyCv s).worker = if s.worker = .blocked then .wakeup else s.worker := by
  unfold notifyCv; split <;> simp_all

theorem notifyCv_rest (s : State) :
    (notifyCv s).file = s.file ∧ (notifyCv s).buf = s.buf ∧ (notifyCv s).good = s.good ∧
    (notifyCv s).isOpen = s.isOpen ∧ (notifyCv s).queue = s.queue ∧
    (notifyCv s).mtx = s.mtx ∧ (notifyCv s).running = s.running ∧
    (notifyCv s).joinable = s.joinable ∧ (notifyCv s).msg = s.msg ∧
    (notifyCv s).prods = s.prods ∧ (notifyCv s).dtor = s.dtor := by
  unfold notifyCv; split <;> simp

theorem finished_of_all {l : List Producer} {j : Nat} {p : Producer}
    (h : l.all Producer.finished = true) (hp : l[j]? = some p) :
    p.pc = .idle ∧ p.todo = [] := by
  have hm : p ∈ l := List.getElem?_mem hp
  have := (List.all_eq_true.mp h) p hm
  simpa [Producer.finished] using this

set_option maxHeartbeats 4000000 in
theorem ctl_stepDtor {s s' : State} (h : Ctl s) (hs : Logger.dtor s = some s') : Ctl s' := by
  obtain ⟨h1, h2, h3, h4, h5, h6, h7, h8, h9, h10, h11⟩ := h
  cases hd : s.dtor <;> simp only [Logger.dtor, hd] at hs <;>
    (repeat' split at hs) <;> (try cases hs) <;>
    constructor <;>
    simp only [notifyCv_worker, notifyCv_rest] <;> first
      | assumption
      | (intro _ j p hp
         first
           | exact finished_of_all (by assumption) hp
           | exact h2 (by simp [hd]) j p hp)
      | (intro j p hp; have h10 := h10 j p hp; clear h2; simp_all [holdsLock]; done)
      | (clear h2 h10; simp_all [holdsLock]; done)
      | (clear h2 h10; split <;> simp_all [holdsLock]; done)

theorem pmtx_set (s : State) (i : Nat) (p' : Producer) (m' : Option Thread)
    (h10 : ∀ (j : Nat) (q : Producer), s.prods[j]? = some q →
      (s.mtx = some (.producer j) ↔ (q.pc = .emplace ∨ q.pc = .unlock)))
    (hself : m' = some (.producer i) ↔ (p'.pc = .emplace ∨ p'.pc = .unlock))
    (hother : ∀ j, i ≠ j → (m' = some (.producer j) ↔ s.mtx = some (.producer j))) :
    ∀ (j : Nat) (q : Producer), (s.prods.set i p')[j]? = some q →
      (m' = some (.producer j) ↔ (q.pc = .emplace ∨ q.pc = .unlock)) := by
  intro j q hq
  rw [List.getElem?_set] at hq
  by_cases hij : i = j
  · subst hij
    rw [if_pos rfl] at hq
    split at hq
    · cases hq
      exact hself
    · cases hq
  · rw [if_neg hij] at hq
    exact (hother j hij).trans (h10 j q hq)

set_option maxHeartbeats 4000000 in
theorem ctl_stepLog {s s' : State} (i : Nat) (h : Ctl s) (hs : Logger.log i s = some s') :
    Ctl s' := by
  obtain ⟨h1, h2, h3, h4, h5, h6, h7, h8, h9, h10, h11⟩ := h
  unfold Logger.log at hs
  cases hi : s.prods[i]? with
  | none => simp [hi] at hs
  | some p =>
    simp only [hi] at hs
    have hal : s.dtor = .alive := by
      by_contra hne
      obtain ⟨hpc, htodo⟩ := h2 hne i p hi
      simp [hpc, htodo] at hs
    have hmi := h10 i p hi
    have hrun : s.running = true := h1.mpr hal
    clear h2
    rcases p with ⟨pc, todo⟩
    cases pc <;> cases todo <;> simp only [] at hs <;>
      (try split at hs) <;> (try cases hs) <;>
      constructor <;>
      simp only [notifyCv_worker, notifyCv_rest] <;> first
        | assumption
        | (intro hne; exact absurd hal hne)
        | (refine pmtx_set s i _ _ h10 ?_ ?_ <;> clear h10 <;> simp_all
           done)
        | (clear h10; simp_all [holdsLock]; done)
        | (clear h10; split <;> simp_all [holdsLock]; done)

theorem ctl_step {s s' : State} (t : Thread) (h : Ctl s) (hs : step t s = some s') : Ctl s' := by
  cases t with
  | producer i => exact ctl_stepLog i h hs
  | worker => exact ctl_stepWorker h hs
  | destructor => exact ctl_stepDtor h hs

theorem run_invariant (P : State → Prop)
    (hstep : ∀ (t : Thread) (s s' : State), P s → step t s = some s' → P s') :
    ∀ (sched : List Thread) (s s' : State), P s → run sched s = some s' → P s' := by
  intro sched
  induction sched with
  | nil =>
    intro s s' h hr
    simp only [run, Option.some.injEq] at hr
    exact hr ▸ h
  | cons t ts ih =>
    intro s s' h hr
    simp only [run] at hr
    cases hst : step t s with
    | none => simp [hst] at hr
    | some s1 =>
      rw [hst] at hr
      exact ih s1 s' (hstep t s s1 h hst) hr

theorem ctl_run {d : Dest} {progs : List (List Record)} {sched : List Thread} {s : State}
    (hr : run sched (initial d progs) = some s) : Ctl s :=
  run_invariant Ctl (fun t _ _ h hs => ctl_step t h hs) sched _ _ (ctl_initial d progs) hr

theorem formatLines_append (a b : List LogMessage) :
    formatLines (a ++ b) = formatLines a ++ formatLines b := by
  induction a with
  | nil => rfl
  | cons m ms ih => simp [formatLines, ih]

theorem data_initial (d : Dest) (progs : List (List Record)) (hd : d.openable = true) :
    Data (d.content.getD []) progs (initial d progs) := by
  refine ⟨hd, [], [], ?_, ?_, ?_⟩
  · simp [initial, Logger.Logger, formatLines]
  · simp [initial, Logger.Logger, inFlight]
  · intro j
    simp only [initial, Logger.Logger, todoOf, List.getElem?_map, List.getD_eq_getElem?_getD]
    cases progs[j]? <;> simp

set_option maxHeartbeats 4000000 in
theorem data_stepWorker {file0 : List Char} {progs : List (List Record)} {s s' : State}
    (h : Data file0 progs s) (hs : Logger.worker s = some s') : Data file0 progs s' := by
  obtain ⟨hg, tw1, tw2, hf, hq, ht⟩ := h
  cases hw : s.worker
  case write =>
    simp only [Logger.worker, hw] at hs
    cases hm : s.msg with
    | none => simp [hm] at hs
    | some m =>
      simp only [hm, hg, if_true, Option.some.injEq] at hs
      subst hs
      simp only [inFlight, hw, hm, or_true, if_true, Option.toList] at hq
      cases tw2 with
      | nil => simp at hq
      | cons x rest =>
        simp only [List.map_cons, List.singleton_append, List.cons.injEq] at hq
        refine ⟨rfl, tw1 ++ [x], rest, ?_, ?_, ?_⟩
        · simp only [List.map_append, formatLines_append, List.map_cons, List.map_nil,
            formatLines, hq.1, List.append_nil, ← List.append_assoc, hf]
        · simpa [inFlight] using hq.2
        · simpa [todoOf] using ht
  all_goals
    simp only [Logger.worker, hw] at hs
    (try split at hs) <;> (try cases hs) <;>
    refine ⟨hg, tw1, tw2, ?_, ?_, ?_⟩ <;> first
      | assumption
      | (simp_all [inFlight, todoOf]; done)
      | (split <;> simp_all [inFlight, todoOf]; done)

theorem inFlight_notifyCv (s : State) : inFlight (notifyCv s) = inFlight s := by
  unfold notifyCv inFlight
  split <;> simp_all

theorem todoOf_notifyCv (s : State) (j : Nat) : todoOf (notifyCv s) j = todoOf s j := by
  simp only [todoOf, notifyCv_rest]

theorem todo_set (l : List Producer) (i j : Nat) (p p' : Producer) (hi : l[i]? = some p) :
    ((l.set i p')[j]?.map Producer.todo).getD []
      = if i = j then p'.todo else (l[j]?.map Producer.todo).getD [] := by
  have hlen : i < l.length := by
    by_contra hge
    rw [List.getElem?_eq_none (by omega)] at hi
    cases hi
  rw [List.getElem?_set]
  by_cases hij : i = j
  · subst hij
    simp [hlen]
  · simp [hij]

theorem data_stepDtor {file0 : List Char} {progs : List (List Record)} {s s' : State}
    (h : Data file0 progs s) (hs : Logger.dtor s = some s') : Data file0 progs s' := by
  obtain ⟨hg, tw1, tw2, hf, hq, ht⟩ := h
  cases hd : s.dtor <;> simp only [Logger.dtor, hd] at hs <;>
    (repeat' split at hs) <;> (try cases hs) <;>
    refine ⟨by simpa [notifyCv_rest] using hg, tw1, tw2, ?_, ?_, ?_⟩ <;>
    (try simp only [notifyCv_rest, inFlight_notifyCv, todoOf_notifyCv]) <;> first
      | assumption
      | (simp_all [inFlight, todoOf]; done)

theorem data_stepLog {file0 : List Char} {progs : List (List Record)} {s s' : State}
    (i : Nat) (h : Data file0 progs s) (hs : Logger.log i s = some s') : Data file0 progs s' := by
  obtain ⟨hg, tw1, tw2, hf, hq, ht⟩ := h
  unfold Logger.log at hs
  cases hi : s.prods[i]? with
  | none => simp [hi] at hs
  | some p =>
    simp only [hi] at hs
    rcases p with ⟨pc, todo⟩
    have hti : todoOf s i = todo := by simp [todoOf, hi]
    cases pc
    case emplace =>
      cases todo with
      | nil => simp at hs
      | cons r rest =>
        simp only [Option.some.injEq] at hs
        subst hs
        refine ⟨hg, tw1, tw2 ++ [(i, r)], hf, ?_, ?_⟩
        · simp only [List.map_append, hq, List.map_cons, List.map_nil, inFlight,
            List.append_assoc]
        · intro j
          have htj := ht j
          simp only [todoOf, todo_set _ i j _ _ hi]
          by_cases hij : i = j
          · subst hij
            rw [hti] at htj
            rw [← htj]
            simp [List.filter_append, List.filter_cons]
          · have hji : ¬ (i == j) = true := by simpa using hij
            simp only [if_neg hij, ← List.append_assoc, List.filter_append, List.filter_cons,
              hji, List.filter_nil, List.append_nil, if_false]
            simpa [todoOf, List.filter_append] using htj
    all_goals
      cases todo <;> simp only [] at hs <;>
      (try split at hs) <;> (try cases hs) <;>
      refine ⟨by simpa [notifyCv_rest] using hg, tw1, tw2, ?_, ?_, ?_⟩ <;>
      (try simp only [notifyCv_rest, inFlight_notifyCv, todoOf_notifyCv]) <;> first
        | assumption
        | (intro j
           have htj := ht j
           simp only [todoOf, todo_set _ i j _ _ hi]
           by_cases hij : i = j
           · subst hij
             rw [hti] at htj
             simpa using htj
           · simpa [hij, todoOf] using htj)
        | (simp_all [inFlight, todoOf]; done)

theorem data_step {file0 : List Char} {progs : List (List Record)} {s s' : State}
    (t : Thread) (h : Data file0 progs s) (hs : step t s = some s') : Data file0 progs s' := by
  cases t with
  | producer i => exact data_stepLog i h hs
  | worker => exact data_stepWorker h hs
  | destructor => exact data_stepDtor h hs

theorem data_run {d : Dest} {progs : List (List Record)} {sched : List Thread} {s : State}
    (hd : d.openable = true) (hr : run sched (initial d progs) = some s) :
    Data (d.content.getD []) progs s :=
  run_invariant (Data (d.content.getD []) progs) (fun t _ _ h hs => data_step t h hs)
    sched _ _ (data_initial d progs hd) hr

/-- Once the destructor has returned, the file holds the original bytes
followed by the lines of an interleaving of the programs of the callers. -/
theorem closed_file {d : Dest} {progs : List (List Record)} {sched : List Thread} {s : State}
    (hd : d.openable = true) (hr : run sched (initial d progs) = some s)
    (hdone : s.dtor = .done) :
    ∃ tw : List (Nat × Record),
      s.file = d.content.getD [] ++ formatLines (tw.map fun x => mkMsg x.2) ∧
      ∀ j : Nat, (tw.filter fun x => x.1 == j).map Prod.snd = progs.getD j [] := by
  have hc := ctl_run hr
  obtain ⟨_, tw1, tw2, hf, hq, ht⟩ := data_run hd hr
  have hex : s.worker = .exited := hc.joined (Or.inr (Or.inr hdone))
  have hqe : s.queue = [] := (hc.ex hex).2
  have hbuf : s.buf = [] := hc.flushed (Or.inr hdone)
  have hfl : inFlight s = [] := by simp [inFlight, hex]
  have htw2 : tw2 = [] := by
    rw [hfl, hqe] at hq
    simpa using hq
  subst htw2
  refine ⟨tw1, ?_, ?_⟩
  · simpa [hbuf] using hf
  · intro j
    have htj := ht j
    have htodo : todoOf s j = [] := by
      unfold todoOf
      cases hp : s.prods[j]? with
      | none => rfl
      | some p => simpa using (hc.fin (by simp [hdone]) j p hp).2
    simpa [htodo] using htj

theorem filter_tag_zero (l : List (Nat × Record))
    (h : ∀ j : Nat, j ≠ 0 → (l.filter fun x => x.1 == j) = []) :
    (l.filter fun x => x.1 == 0) = l := by
  rw [List.filter_eq_self]
  intro a ha
  by_contra hne
  have hmem : a ∈ l.filter fun x => x.1 == a.1 := List.mem_filter.mpr ⟨ha, by simp⟩
  rw [h a.1 (by simpa using hne)] at hmem
  cases hmem

theorem single_getD (rs : List Record) (j : Nat) (hj : j ≠ 0) :
    ([rs] : List (List Record)).getD j [] = [] := by
  cases j with
  | zero => exact absurd rfl hj
  | succ n => simp

/-- With one caller, once the destructor has returned the file holds the
original bytes followed by the lines of the submitted records, in order. -/
theorem closed_file_single {d : Dest} {rs : List Record} {sched : List Thread} {s : State}
    (hd : d.openable = true) (hr : run sched (initial d [rs]) = some s)
    (hdone : s.dtor = .done) :
    s.file = d.content.getD [] ++ formatLines (rs.map mkMsg) := by
  obtain ⟨tw, hf, ht⟩ := closed_file hd hr hdone
  have hz : (tw.filter fun x => x.1 == 0) = tw := by
    apply filter_tag_zero
    intro j hj
    have := ht j
    rw [single_getD rs j hj] at this
    simpa using this
  have h0 := ht 0
  rw [hz] at h0
  simp only [List.getD_cons_zero] at h0
  rw [hf, ← h0, List.map_map]
  rfl

theorem count_by_tag (l : List (Nat × Record)) (M : Nat) :
    (l.filter fun x => decide (x.1 < M)).length
      = ∑ j in Finset.range M, (l.filter fun x => x.1 == j).length := by
  induction M with
  | zero => simp
  | succ M ih =>
    rw [Finset.sum_range_succ, ← ih]
    clear ih
    induction l with
    | nil => rfl
    | cons a l ihl =>
      simp only [List.filter_cons]
      by_cases h1 : a.1 < M
      · have h2 : a.1 < M + 1 := by omega
        have h3 : ¬ a.1 = M := by omega
        simp [h1, h2, h3, ihl]
        omega
      · by_cases h3 : a.1 = M
        · have h2 : a.1 < M + 1 := by omega
          simp [h1, h2, h3, ihl]
          simp [h3] at ihl
          omega
        · have h2 : ¬ a.1 < M + 1 := by omega
          simp [h1, h2, h3, ihl]

/-! ## The sequential interleaving runs to completion -/

theorem run_append (a b : List Thread) (s : State) :
    run (a ++ b) s = (run a s).bind (run b) := by
  induction a generalizing s with
  | nil => rfl
  | cons t ts ih =>
    simp only [List.cons_append, run]
    cases step t s with
    | none => rfl
    | some s1 => simpa using ih s1

theorem run_submit_block (d : Dest) (q : List LogMessage) (r : Record) (rest : List Record) :
    run [.producer 0, .producer 0, .producer 0, .producer 0] (submitState d q (r :: rest))
      = some (submitState d (q ++ [mkMsg r]) rest) := by
  simp [run, step, Logger.log, notifyCv, submitState]

theorem run_submit_all (d : Dest) (todo : List Record) :
    ∀ q : List LogMessage,
      run (times todo.length [.producer 0, .producer 0, .producer 0, .producer 0])
        (submitState d q todo) = some (submitState d (q ++ todo.map mkMsg) []) := by
  induction todo with
  | nil => intro q; simp [times, run]
  | cons r rest ih =>
    intro q
    simp only [List.length_cons, times]
    rw [run_append, run_submit_block, Option.some_bind, ih]
    simp

theorem run_drain_block (d : Dest) (b : List Char) (m : LogMessage) (q : List LogMessage) :
    run [.worker, .worker, .worker, .worker, .worker] (drainState d b (m :: q))
      = some (drainState d (b ++ formatLine m) q) := by
  simp [run, step, Logger.worker, drainState]

theorem run_drain_all (d : Dest) (q : List LogMessage) :
    ∀ b : List Char,
      run (times q.length [.worker, .worker, .worker, .worker, .worker]) (drainState d b q)
        = some (drainState d (b ++ formatLines q) []) := by
  induction q with
  | nil => intro b; simp [times, run, formatLines]
  | cons m q ih =>
    intro b
    simp only [List.length_cons, times]
    rw [run_append, run_drain_block, Option.some_bind, ih]
    simp [formatLines]

/-- For every sequence of records the sequential interleaving is a complete
run: the destructor returns, and the file holds the lines of the records. -/
theorem run_sequential (d : Dest) (rs : List Record) (hd : d.openable = true) :
    ∃ s : State, run (sequentialSchedule rs.length) (initial d [rs]) = some s ∧
      s.dtor = .done ∧ s.worker = .exited ∧
      s.file = d.content.getD [] ++ formatLines (rs.map mkMsg) := by
  have hinit : initial d [rs] = submitState d [] rs := rfl
  rw [hinit]
  unfold sequentialSchedule
  rw [run_append, run_submit_all, Option.some_bind, List.nil_append, run_append]
  cases rs with
  | nil =>
    simp [run, step, Logger.dtor, Logger.worker, notifyCv, submitState, hd, formatLines,
      Producer.finished]
  | cons r rest =>
    have h2 : run [.destructor, .destructor] (submitState d (List.map mkMsg (r :: rest)) [])
        = some { submitState d (List.map mkMsg (r :: rest)) [] with
            running := false, dtor := .join } := by
      simp [run, step, Logger.dtor, notifyCv, submitState, Producer.finished]
    rw [h2, Option.some_bind, run_append]
    simp only [List.length_cons, Nat.succ_ne_zero, if_false, Nat.add_one_ne_zero]
    rw [run_append]
    have h3 : run [.worker, .worker, .worker, .worker]
        { submitState d (List.map mkMsg (r :: rest)) [] with running := false, dtor := .join }
        = some (drainState d [] (List.map mkMsg (r :: rest))) := by
      simp [run, step, Logger.worker, submitState, drainState, hd]
    rw [h3, Option.some_bind, run_append]
    have h4 := run_drain_all d (List.map mkMsg (r :: rest)) []
    simp only [List.length_map, List.length_cons, List.nil_append] at h4
    rw [h4, Option.some_bind]
    simp [run, step, Logger.worker, Logger.dtor, drainState]

/-! ## The claims -/

theorem take_tag_zero {rs : List Record} {todo : List Record} (l : List (Nat × Record))
    (hz : ∀ j : Nat, j ≠ 0 → (l.filter fun x => x.1 == j) = [])
    (h0 : ((l.filter fun x => x.1 == 0).map Prod.snd) ++ todo = rs) :
    l.length ≤ rs.length ∧ rs.take l.length = l.map Prod.snd ∧ rs.drop l.length = todo := by
  rw [filter_tag_zero l hz] at h0
  subst h0
  refine ⟨by simp, ?_, ?_⟩
  · rw [List.take_left' (by simp)]
  · rw [List.drop_left' (by simp)]

theorem count_newline_formatLine (m : LogMessage) (hm : Char.ofNat 10 ∉ m.text) :
    (formatLine m).count (Char.ofNat 10) = 1 := by
  have hd : ((toString m.level.toInt).toList).count (Char.ofNat 10) = 0 := by
    cases m.level <;> decide
  have hs : (" : ".toList).count (Char.ofNat 10) = 0 := by decide
  have hn : ("\n".toList).count (Char.ofNat 10) = 1 := by decide
  have ht : m.text.count (Char.ofNat 10) = 0 := List.count_eq_zero.mpr hm
  simp only [formatLine, List.count_append, hd, hs, hn, ht]

theorem count_newline_formatLines (rs : List Record)
    (h : ∀ r ∈ rs, Char.ofNat 10 ∉ r.2) :
    (formatLines (rs.map mkMsg)).count (Char.ofNat 10) = rs.length := by
  induction rs with
  | nil => rfl
  | cons r rest ih =>
    have hr : Char.ofNat 10 ∉ (mkMsg r).text := by
      intro hmem
      exact h r (List.mem_cons_self _ _) (List.mem_of_mem_take hmem)
    simp only [List.map_cons, formatLines, List.count_append, List.length_cons,
      count_newline_formatLine _ hr, ih fun x hx => h x (List.mem_cons_of_mem _ hx)]
    omega

/-- C1. No loss under shutdown: one caller submits the records `rs` to a logger
whose open succeeded, then the destructor runs.  In every interleaving, when the
destructor has returned the file holds its original bytes followed by exactly
the lines of `rs`, one per record and in order (no record dropped, none written
twice); when no text holds a newline these are `rs.length` newline-terminated
lines; and for every `rs` there is an interleaving in which the destructor does
return. -/
theorem no_loss_under_shutdown (d : Dest) (rs : List Record) (hd : d.openable = true) :
    (∀ (sched : List Thread) (s : State),
        run sched (initial d [rs]) = some s → s.dtor = .done →
          s.file = d.content.getD [] ++ formatLines (rs.map mkMsg)) ∧
    (rs.map mkMsg).length = rs.length ∧
    ((∀ r ∈ rs, Char.ofNat 10 ∉ r.2) →
      (formatLines (rs.map mkMsg)).count (Char.ofNat 10) = rs.length) ∧
    (∃ s : State, run (sequentialSchedule rs.length) (initial d [rs]) = some s ∧
      s.dtor = .done) := by
  refine ⟨fun sched s hr hdone => closed_file_single hd hr hdone, by simp,
    count_newline_formatLines rs, ?_⟩
  obtain ⟨s, hr, hdone, _, _⟩ := run_sequential d rs hd
  exact ⟨s, hr, hdone⟩

/-- The run of C1 on two records, and the existence of a complete run for the
ten thousand records of the demonstration program. -/
theorem no_loss_under_shutdown_witness :
    exDest.openable = true ∧
    run (sequentialSchedule 2) (initial exDest [exRecords])
      = some (closedState "old\n0 : a\n2 : bc\n".toList 1) ∧
    (closedState "old\n0 : a\n2 : bc\n".toList 1).file
      = exDest.content.getD [] ++ formatLines (exRecords.map mkMsg) ∧
    (∃ s : State, run (sequentialSchedule demoRecords.length) (initial demoDest [demoRecords])
      = some s ∧ s.dtor = .done) :=
  ⟨rfl, by decide,
    (no_loss_under_shutdown exDest exRecords rfl).1 (sequentialSchedule 2) _ (by decide) rfl,
    (no_loss_under_shutdown demoDest demoRecords rfl).2.2.2⟩

/-- C2. Order preservation: with one caller submitting `rs`, in every state
reached by an interleaving there is a number `k` of submits done so far (the
caller still has `rs.drop k` to submit) such that the records already written
to the sink, then the record the worker has dequeued and not yet written, then
the queue front to back, are the first `k` records of `rs`; hence the written
records are an initial segment of `rs` in submission order, and when the
destructor has returned the file holds all of them in that order. -/
theorem order_preservation (d : Dest) (rs : List Record) (sched : List Thread) (s : State)
    (hd : d.openable = true) (hr : run sched (initial d [rs]) = some s) :
    ∃ (w : List LogMessage) (k : Nat),
      k ≤ rs.length ∧ todoOf s 0 = rs.drop k ∧
      s.file ++ s.buf = d.content.getD [] ++ formatLines w ∧
      w ++ inFlight s ++ s.queue = (rs.take k).map mkMsg ∧
      (s.dtor = .done → s.file = d.content.getD [] ++ formatLines (rs.map mkMsg)) := by
  obtain ⟨_, tw1, tw2, hf, hq, ht⟩ := data_run hd hr
  have hz : ∀ j : Nat, j ≠ 0 → ((tw1 ++ tw2).filter fun x => x.1 == j) = [] := by
    intro j hj
    have := ht j
    rw [single_getD rs j hj] at this
    simpa using (List.append_eq_nil.mp this).1
  have h0 := ht 0
  simp only [List.getD_cons_zero] at h0
  obtain ⟨hk, htake, hdrop⟩ := take_tag_zero (tw1 ++ tw2) hz h0
  refine ⟨tw1.map fun x => mkMsg x.2, (tw1 ++ tw2).length, hk, hdrop.symm, hf, ?_,
    fun hdone => closed_file_single hd hr hdone⟩
  rw [htake, List.append_assoc, ← hq, ← List.map_append, List.map_map]
  rfl

/-- The invariant of C2 at a state in which one record is in flight and the
next is about to be queued. -/
theorem order_preservation_witness :
    exDest.openable = true ∧
    run exMidSchedule (initial exDest [exRecords]) = some exMidState ∧
    ∃ (w : List LogMessage) (k : Nat),
      k ≤ exRecords.length ∧ todoOf exMidState 0 = exRecords.drop k ∧
      exMidState.file ++ exMidState.buf = exDest.content.getD [] ++ formatLines w ∧
      w ++ inFlight exMidState ++ exMidState.queue = (exRecords.take k).map mkMsg ∧
      (exMidState.dtor = .done →
        exMidState.file = exDest.content.getD [] ++ formatLines (exRecords.map mkMsg)) :=
  ⟨rfl, by decide,
    order_preservation exDest exRecords exMidSchedule exMidState rfl (by decide)⟩

theorem formatLine_eq_iff (lvl : LogLevel) (a b : List Char) :
    formatLine { level := lvl, text := a } = formatLine { level := lvl, text := b } ↔ a = b := by
  constructor
  · intro h
    simp only [formatLine, List.append_assoc] at h
    have h1 := List.append_cancel_left h
    have h2 := List.append_cancel_left h1
    exact List.append_cancel_right h2
  · intro h
    rw [h]

/-- C3. Truncation: constructing a `LogMessage` is total; it stores the first
`min length 255` characters of the text, that is, the text itself when it has at
most 255 characters and its 255-character initial segment otherwise.  The line
of the record holds exactly these characters, and it equals the line of the full
text only when the text has at most 255 characters.  In a complete run in which
the record is submitted between the records `pre` and `post`, the file holds the
lines of `pre`, the line of the truncated record, and then the lines of `post`,
which are those of `post` alone. -/
theorem truncation (lvl : LogLevel) (txt : List Char) (d : Dest) (pre post : List Record)
    (sched : List Thread) (s : State) (hd : d.openable = true)
    (hr : run sched (initial d [pre ++ (lvl, txt) :: post]) = some s)
    (hdone : s.dtor = .done) :
    (LogMessage.LogMessage lvl txt).level = lvl ∧
    (LogMessage.LogMessage lvl txt).text = txt.take 255 ∧
    (LogMessage.LogMessage lvl txt).text.length = min txt.length 255 ∧
    (txt.length ≤ 255 → (LogMessage.LogMessage lvl txt).text = txt) ∧
    formatLine (LogMessage.LogMessage lvl txt)
      = (toString lvl.toInt).toList ++ " : ".toList ++ txt.take 255 ++ "\n".toList ∧
    (formatLine (LogMessage.LogMessage lvl txt) = formatLine { level := lvl, text := txt }
      ↔ txt.length ≤ 255) ∧
    s.file = d.content.getD [] ++ formatLines (pre.map mkMsg)
      ++ formatLine { level := lvl, text := txt.take 255 } ++ formatLines (post.map mkMsg) := by
  have htext : (LogMessage.LogMessage lvl txt).text = txt.take 255 := rfl
  refine ⟨rfl, htext, ?_, ?_, rfl, ?_, ?_⟩
  · rw [htext, List.length_take, Nat.min_comm]
  · intro hle
    rw [htext, List.take_of_length_le hle]
  · have : LogMessage.LogMessage lvl txt = { level := lvl, text := txt.take 255 } := rfl
    rw [this, formatLine_eq_iff, List.take_eq_self_iff]
  · rw [closed_file_single hd hr hdone, List.map_append, formatLines_append]
    simp only [List.map_cons, formatLines, List.append_assoc]
    rfl

set_option maxRecDepth 100000 in
/-- The run of C3 on a text of three hundred characters followed by a second
record. -/
theorem truncation_witness :
    exDest.openable = true ∧
    run (sequentialSchedule 2)
        (initial exDest [[] ++ (LogLevel.WARN, exLongText) :: [(LogLevel.INFO, "next".toList)]])
      = some (closedState ("old\n1 : ".toList ++ List.replicate 255 (Char.ofNat 120)
          ++ "\n0 : next\n".toList) 1) ∧
    (LogMessage.LogMessage .WARN exLongText).text.length = min exLongText.length 255 ∧
    (closedState ("old\n1 : ".toList ++ List.replicate 255 (Char.ofNat 120)
          ++ "\n0 : next\n".toList) 1).file
      = exDest.content.getD [] ++ formatLines (([] : List Record).map mkMsg)
        ++ formatLine { level := .WARN, text := exLongText.take 255 }
        ++ formatLines ([(LogLevel.INFO, "next".toList)].map mkMsg) :=
  have h := truncation .WARN exLongText exDest [] [(.INFO, "next".toList)]
    (sequentialSchedule 2) _ rfl (by decide) rfl
  ⟨rfl, by decide, h.2.2.1, h.2.2.2.2.2.2⟩

/-- C4. Line format and level encoding: when the worker writes the record `m`
on a good stream, the bytes appended to the sink are the decimal code of the
level, the three characters of " : ", the text as it is (nothing escaped), and
one newline, and nothing else of the sink or the queue changes.  The code is 0
for INFO, 1 for WARN and 2 for ERROR, printed as one digit, and the level is
recovered from the code. -/
theorem line_format_and_level_encoding (s s' : State) (m : LogMessage)
    (hw : s.worker = .write) (hm : s.msg = some m) (hg : s.good = true)
    (hs : step .worker s = some s') :
    s'.buf = s.buf ++ ((toString m.level.toInt).toList ++ " : ".toList ++ m.text
      ++ "\n".toList) ∧
    s'.file = s.file ∧ s'.queue = s.queue ∧
    (LogLevel.INFO.toInt = 0 ∧ LogLevel.WARN.toInt = 1 ∧ LogLevel.ERROR.toInt = 2) ∧
    ((toString LogLevel.INFO.toInt).toList = "0".toList ∧
      (toString LogLevel.WARN.toInt).toList = "1".toList ∧
      (toString LogLevel.ERROR.toInt).toList = "2".toList) ∧
    (∀ a b : LogLevel, a.toInt = b.toInt → a = b) ∧
    (∀ (a b : LogLevel) (t u : List Char),
      formatLine { level := a, text := t } = formatLine { level := b, text := u } → a = b) := by
  simp only [step, Logger.worker, hw, hm, hg, if_true, Option.some.injEq] at hs
  subst hs
  refine ⟨rfl, rfl, rfl, ⟨rfl, rfl, rfl⟩, ⟨by decide, by decide, by decide⟩, ?_, ?_⟩
  · intro a b h
    cases a <;> cases b <;> first | rfl | (exact absurd h (by decide))
  · intro a b t u h
    have hh := congrArg List.head? h
    have ha : ∀ (l : LogLevel) (v : List Char),
        (formatLine { level := l, text := v }).head? = (toString l.toInt).toList.head? := by
      intro l v
      cases l <;> rfl
    rw [ha, ha] at hh
    cases a <;> cases b <;> first | rfl | (exact absurd hh (by decide))

/-- The write of C4 at the state in which the worker is about to write the
record `INFO, "a"`. -/
theorem line_format_and_level_encoding_witness :
    exMidState.worker = .write ∧
    exMidState.msg = some { level := .INFO, text := "a".toList } ∧
    exMidState.good = true ∧
    step .worker exMidState = some { exMidState with buf := "0 : a\n".toList, worker := .relock } ∧
    ({ exMidState with buf := "0 : a\n".toList, worker := .relock } : State).buf
      = exMidState.buf ++ ((toString LogLevel.INFO.toInt).toList ++ " : ".toList ++ "a".toList
        ++ "\n".toList) :=
  ⟨rfl, rfl, rfl, by decide,
    (line_format_and_level_encoding exMidState _ _ rfl rfl rfl (by decide)).1⟩

/-- C5. Append semantics: a first logger is opened on a destination, `rs1` is
submitted and the logger is closed; a second logger is then opened on the file
the first one left, `rs2` is submitted and the logger is closed.  The file then
holds the original bytes unchanged, followed by the lines of the first session
and by the lines of the second; `rs1.length + rs2.length` records are added. -/
theorem append_semantics (d : Dest) (rs1 rs2 : List Record) (sched1 sched2 : List Thread)
    (s1 s2 : State) (hd : d.openable = true)
    (h1 : run sched1 (initial d [rs1]) = some s1) (hd1 : s1.dtor = .done)
    (h2 : run sched2 (initial { content := some s1.file, openable := true } [rs2]) = some s2)
    (hd2 : s2.dtor = .done) :
    s1.file = d.content.getD [] ++ formatLines (rs1.map mkMsg) ∧
    s2.file = d.content.getD [] ++ formatLines (rs1.map mkMsg) ++ formatLines (rs2.map mkMsg) ∧
    s2.file = d.content.getD [] ++ formatLines ((rs1 ++ rs2).map mkMsg) ∧
    ((rs1 ++ rs2).map mkMsg).length = rs1.length + rs2.length := by
  have e1 := closed_file_single hd h1 hd1
  have e2 := closed_file_single rfl h2 hd2
  simp only [Option.getD_some] at e2
  refine ⟨e1, ?_, ?_, by simp⟩
  · rw [e2, e1]
  · rw [e2, e1, List.map_append, formatLines_append, List.append_assoc]

/-- The two sessions of C5 on one record each. -/
theorem append_semantics_witness :
    exDest.openable = true ∧
    run (sequentialSchedule 1) (initial exDest [[(LogLevel.INFO, "a".toList)]])
      = some (closedState "old\n0 : a\n".toList 1) ∧
    run (sequentialSchedule 1)
        (initial { content := some (closedState "old\n0 : a\n".toList 1).file, openable := true }
          [[(LogLevel.ERROR, "bc".toList)]])
      = some (closedState "old\n0 : a\n2 : bc\n".toList 1) ∧
    (closedState "old\n0 : a\n2 : bc\n".toList 1).file
      = exDest.content.getD [] ++ formatLines ([(LogLevel.INFO, "a".toList)].map mkMsg)
        ++ formatLines ([(LogLevel.ERROR, "bc".toList)].map mkMsg) :=
  ⟨rfl, by decide, by decide,
    (append_semantics exDest [(.INFO, "a".toList)] [(.ERROR, "bc".toList)]
      (sequentialSchedule 1) (sequentialSchedule 1) (closedState "old\n0 : a\n".toList 1)
      (closedState "old\n0 : a\n2 : bc\n".toList 1) rfl (by decide) rfl (by decide) rfl).2.1⟩

/-- C6, as the code refutes it: on a destination that cannot be opened the
constructor returns a logger, reports no error, and the worker thread is
started although the stream is in its failed state. -/
theorem open_failure_counterexample :
    ∃ s : State, Logger.Logger exClosedDest [] = .ok s ∧ s.joinable = true ∧
      s.worker = .loopRunning ∧ s.good = false ∧
      ¬ (s.joinable = true ↔ exClosedDest.openable = true) :=
  ⟨_, rfl, rfl, rfl, rfl, by decide⟩

/-- C6, amended: constructing the logger never fails and reports no error;
the worker thread is started whether or not the open succeeded, and the stream
is good and open exactly when the open succeeded. -/
theorem open_failure_amended (d : Dest) (progs : List (List Record)) :
    ∃ s : State, Logger.Logger d progs = .ok s ∧ s = initial d progs ∧ s.joinable = true ∧
      s.worker = .loopRunning ∧ s.good = d.openable ∧ s.isOpen = d.openable :=
  ⟨_, rfl, rfl, rfl, rfl, rfl, rfl⟩

theorem tags_bounded (progs : List (List Record)) (tw : List (Nat × Record))
    (ht : ∀ j : Nat, (tw.filter fun x => x.1 == j).map Prod.snd = progs.getD j []) :
    (tw.filter fun x => decide (x.1 < progs.length)) = tw := by
  rw [List.filter_eq_self]
  intro a ha
  by_contra hge
  have hlen : progs.length ≤ a.1 := by simpa using hge
  have hmem : a ∈ tw.filter fun x => x.1 == a.1 := List.mem_filter.mpr ⟨ha, by simp⟩
  have hnil := ht a.1
  rw [List.getD_eq_getElem?_getD, List.getElem?_eq_none hlen] at hnil
  simp only [Option.getD_none, List.map_eq_nil_iff] at hnil
  rw [hnil] at hmem
  cases hmem

/-- C7. Concurrent producers: `progs.length` callers submit `N` records each,
in any interleaving with one another and with the worker, and the destructor
runs after the last submit.  When it has returned, the file holds the original
bytes followed by the complete lines of a sequence `tw` of
`progs.length * N` records, each tagged with the caller it comes from; the
records tagged `j` are, in order, exactly the records of caller `j`. -/
theorem concurrent_producers (d : Dest) (progs : List (List Record)) (N : Nat)
    (sched : List Thread) (s : State) (hd : d.openable = true)
    (hN : ∀ p ∈ progs, p.length = N)
    (hr : run sched (initial d progs) = some s) (hdone : s.dtor = .done) :
    ∃ tw : List (Nat × Record),
      s.file = d.content.getD [] ++ formatLines (tw.map fun x => mkMsg x.2) ∧
      tw.length = progs.length * N ∧
      (∀ j : Nat, (tw.filter fun x => x.1 == j).map Prod.snd = progs.getD j []) ∧
      (∀ x ∈ tw, x.1 < progs.length) := by
  obtain ⟨tw, hf, ht⟩ := closed_file hd hr hdone
  have hb := tags_bounded progs tw ht
  refine ⟨tw, hf, ?_, ht, ?_⟩
  · have hc := count_by_tag tw progs.length
    rw [hb] at hc
    rw [hc]
    have hterm : ∀ j ∈ Finset.range progs.length,
        (tw.filter fun x => x.1 == j).length = N := by
      intro j hj
      have hlt : j < progs.length := Finset.mem_range.mp hj
      have := congrArg List.length (ht j)
      rw [List.length_map] at this
      rw [this, List.getD_eq_getElem?_getD, List.getElem?_eq_getElem hlt]
      exact hN _ (List.getElem_mem _)
    rw [Finset.sum_congr rfl hterm]
    simp
  · intro x hx
    rw [← hb] at hx
    simpa using (List.mem_filter.mp hx).2

/-- The run of C7 on two callers with two records each, interleaved. -/
theorem concurrent_producers_witness :
    exDest.openable = true ∧
    (∀ p ∈ exPrograms, p.length = 2) ∧
    run exConcurrentSchedule (initial exDest exPrograms)
      = some (closedState "old\n1 : b1\n0 : a1\n1 : b2\n0 : a2\n".toList 2) ∧
    ∃ tw : List (Nat × Record),
      (closedState "old\n1 : b1\n0 : a1\n1 : b2\n0 : a2\n".toList 2).file
        = exDest.content.getD [] ++ formatLines (tw.map fun x => mkMsg x.2) ∧
      tw.length = exPrograms.length * 2 ∧
      (∀ j : Nat, (tw.filter fun x => x.1 == j).map Prod.snd = exPrograms.getD j []) ∧
      (∀ x ∈ tw, x.1 < exPrograms.length) :=
  ⟨rfl, by decide, by decide,
    concurrent_producers exDest exPrograms 2 exConcurrentSchedule _ rfl (by decide)
      (by decide) rfl⟩

theorem run_of_stuck (s : State) (hstuck : ∀ t : Thread, step t s = none) :
    ∀ (sched : List Thread) (s' : State), run sched s = some s' → s' = s := by
  intro sched s' hr
  cases sched with
  | nil =>
    simp only [run, Option.some.injEq] at hr
    exact hr.symm
  | cons t ts => simp [run, hstuck t] at hr

/-- C8, evaluated on the code: on a logger nobody has written to, the worker
evaluates the predicate of `cv.wait` under the lock while `running` is still
true; the destructor, which does not take `mtx`, clears `running` and issues
`notify_all`; the worker then releases the lock and blocks.  The state reached
has the flag false, the notification past and the worker blocked on the
condition signal with the queue empty; no thread can move from it, so the
`join` of the destructor never returns. -/
theorem shutdown_lost_wakeup :
    run lostWakeupSchedule (initial demoDest []) = some lostWakeupState ∧
    lostWakeupState.running = false ∧ lostWakeupState.dtor = .join ∧
    lostWakeupState.worker = .blocked ∧ lostWakeupState.queue = [] ∧
    (∀ t : Thread, step t lostWakeupState = none) ∧
    (∀ (sched : List Thread) (s : State),
      run sched lostWakeupState = some s → s.dtor ≠ .done ∧ s.worker = .blocked) := by
  have hstuck : ∀ t : Thread, step t lostWakeupState = none := by
    intro t
    cases t <;> rfl
  refine ⟨by decide, rfl, rfl, rfl, rfl, hstuck, ?_⟩
  intro sched s hr
  rw [run_of_stuck _ hstuck sched s hr]
  exact ⟨by decide, rfl⟩

/-- C9, as the code refutes it: right after construction the next statement
of the worker is the test of `running` in the condition of its outer loop
(line 29); it reads the flag, and the worker does not hold `mtx`. -/
theorem lock_discipline_counterexample :
    ¬ ∀ (d : Dest) (progs : List (List Record)) (sched : List Thread) (s : State) (t : Thread)
        (x : Shared), run sched (initial d progs) = some s → (step t s).isSome = true →
        x ∈ touches t s → s.mtx = some t := by
  intro h
  have := h demoDest [] [] (initial demoDest []) .worker .running rfl rfl (by decide)
  exact absurd this (by decide)

/-- C9, amended: in every reachable state, a statement of `Logger::log`, or of
the body of the worker's loop (the predicate of `cv.wait` and the inner drain
loop), that reads or writes the queue is taken while the acting thread holds
`mtx`; so is the test of `running` inside the predicate of `cv.wait`.  The
flag `running` is an atomic: the worker reads it in the condition of its outer
loop without holding `mtx`. -/
theorem lock_discipline_amended (d : Dest) (progs : List (List Record)) (sched : List Thread)
    (s : State) (t : Thread) (hr : run sched (initial d progs) = some s)
    (hq : Shared.queue ∈ touches t s) (hb : t = .worker → inWorkerBody s = true) :
    s.mtx = some t ∧
    (s.worker = .waitPred → s.mtx = some .worker) ∧
    (s.worker = .loopRunning → s.mtx ≠ some .worker) := by
  have hc := ctl_run hr
  refine ⟨?_, ?_, ?_⟩
  · cases t with
    | producer i =>
      simp only [touches] at hq
      cases hp : s.prods[i]? with
      | none => simp [hp] at hq
      | some p =>
        simp only [hp] at hq
        by_cases hpc : p.pc = .emplace
        · exact (hc.pmtx i p hp).mpr (Or.inl hpc)
        · simp [hpc] at hq
    | worker =>
      have hbody := hb rfl
      apply hc.wmtx.mpr
      simp only [touches] at hq
      simp only [inWorkerBody] at hbody
      cases hw : s.worker <;> simp_all [holdsLock]
    | destructor =>
      simp only [touches] at hq
      cases hdt : s.dtor <;> simp [hdt] at hq
  · intro hw
    apply hc.wmtx.mpr
    simp [hw, holdsLock]
  · intro hw hm
    have := hc.wmtx.mp hm
    simp [hw, holdsLock] at this

/-- The discipline of C9 at a state in which the caller is about to queue a
record while the worker writes. -/
theorem lock_discipline_amended_witness :
    run exMidSchedule (initial exDest [exRecords]) = some exMidState ∧
    Shared.queue ∈ touches (.producer 0) exMidState ∧
    exMidState.mtx = some (.producer 0) :=
  ⟨by decide, by decide,
    (lock_discipline_amended exDest [exRecords] exMidSchedule exMidState (.producer 0)
      (by decide) (by decide) (by decide)).1⟩

theorem mtxValid_step {s s' : State} (t : Thread) (h : MtxValid s)
    (hs : step t s = some s') : MtxValid s' := by
  cases t with
  | producer i =>
    simp only [step, Logger.log] at hs
    cases hi : s.prods[i]? with
    | none => simp [hi] at hs
    | some p =>
      have hlen : i < s.prods.length := by
        by_contra hge
        rw [List.getElem?_eq_none (by omega)] at hi
        cases hi
      simp only [hi] at hs
      rcases p with ⟨pc, todo⟩
      cases pc <;> cases todo <;> simp only [] at hs <;>
        (try split at hs) <;> (try cases hs) <;>
        intro k hk <;>
        simp only [notifyCv_rest, List.length_set] at hk ⊢ <;> first
          | exact h k hk
          | (cases hk; exact hlen)
          | cases hk
  | worker =>
    simp only [step] at hs
    cases hw : s.worker <;> simp only [Logger.worker, hw] at hs <;>
      (try split at hs) <;> (try cases hs) <;>
      intro k hk <;> first
        | exact h k hk
        | cases hk
  | destructor =>
    simp only [step] at hs
    cases hdt : s.dtor <;> simp only [Logger.dtor, hdt] at hs <;>
      (repeat' split at hs) <;> (try cases hs) <;>
      intro k hk <;>
      simp only [notifyCv_rest] at hk ⊢ <;> exact h k hk

theorem mtxValid_run {d : Dest} {progs : List (List Record)} {sched : List Thread} {s : State}
    (hr : run sched (initial d progs) = some s) : MtxValid s :=
  run_invariant MtxValid (fun t _ _ h hs => mtxValid_step t h hs) sched _ _
    (by intro k hk; cases hk) hr

/-- C10. The mutex is never held across a write: in every reachable state in
which the worker is writing a record to the sink, the worker does not hold
`mtx` (in every reachable state it holds `mtx` exactly at the predicate of
`cv.wait`, at the test of the inner loop, at the dequeue, at its unlock and at
the end of the outer body); the mutex is then free or held by a caller inside
`log`, and when it is free a caller that enters `log` takes it while the write
is still in progress. -/
theorem mutex_not_held_across_write (d : Dest) (progs : List (List Record))
    (sched : List Thread) (s : State) (hr : run sched (initial d progs) = some s)
    (hw : s.worker = .write) :
    s.mtx ≠ some .worker ∧
    (s.mtx = some .worker ↔ holdsLock s.worker = true) ∧
    (s.mtx = none ∨ ∃ (k : Nat) (q : Producer), s.mtx = some (.producer k) ∧
      s.prods[k]? = some q ∧ (q.pc = .emplace ∨ q.pc = .unlock)) ∧
    (∀ (i : Nat) (r : Record) (rest : List Record),
      s.prods[i]? = some { pc := .idle, todo := r :: rest } → s.mtx = none →
      ∃ s' : State, step (.producer i) s = some s' ∧ s'.mtx = some (.producer i) ∧
        s'.worker = .write) := by
  have hc := ctl_run hr
  have hv := mtxValid_run hr
  have hnw : s.mtx ≠ some .worker := by
    intro hm
    have := hc.wmtx.mp hm
    simp [hw, holdsLock] at this
  refine ⟨hnw, hc.wmtx, ?_, ?_⟩
  · cases hm : s.mtx with
    | none => exact Or.inl rfl
    | some t =>
      cases t with
      | producer k =>
        have hk := hv k hm
        refine Or.inr ⟨k, s.prods[k], rfl, List.getElem?_eq_getElem hk, ?_⟩
        exact (hc.pmtx k _ (List.getElem?_eq_getElem hk)).mp hm
      | worker => exact absurd hm hnw
      | destructor => exact absurd hm hc.dmtx
  · intro i r rest hp hm
    refine ⟨{ s with mtx := some (.producer i),
                     prods := s.prods.set i { pc := .emplace, todo := r :: rest } },
      ?_, rfl, hw⟩
    simp only [step, Logger.log, hp, hm, if_true]

/-- The state of C10 in which the worker writes while the mutex is free and
the caller is about to enter `log` again. -/
theorem mutex_not_held_across_write_witness :
    run exWriteSchedule (initial exDest [exRecords]) = some exWriteState ∧
    exWriteState.worker = .write ∧ exWriteState.mtx ≠ some .worker ∧
    ∃ s' : State, step (.producer 0) exWriteState = some s' ∧
      s'.mtx = some (.producer 0) ∧ s'.worker = .write :=
  have h := mutex_not_held_across_write exDest [exRecords] exWriteSchedule exWriteState
    (by decide) rfl
  ⟨by decide, rfl, h.1, h.2.2.2 0 (.ERROR, "bc".toList) [] rfl rfl⟩

end HPLog
